import Mathlib

/-!
Verification development for the wiki-lm corpus-creation pipeline
(src/create_corpus.py).  Text is modelled as a list of Unicode
codepoints (Python strings may carry lone surrogates, which Lean Char
cannot represent).  The process-wide transliteration cache of
unidecode is modelled as an explicit state threaded through the
character folder; a load counter instruments the number of resource
load attempts per section, as the spec suggests for cache testing.
The backing transliteration resource (the unidecode data modules) is
modelled as an abstract function from a section number to an optional
256-slot replacement table.
-/

/-- Text as a list of Unicode codepoints. -/
abbrev Str := List Nat

/-- Replacement table of a section: a list of replacement strings,
indexed by the low byte of a codepoint. -/
abbrev Table := List Str

/-- Codepoints kept verbatim by the modified transliterator, from the
list in the source: 0xe4, 0xc4, 0xf6, 0xd6, 0xfc, 0xdc. -/
def umlautCodepoints : List Nat := [0xe4, 0xc4, 0xf6, 0xd6, 0xfc, 0xdc]

/-- Decidable ASCII test, models encodability as ASCII. -/
def isAsciiCp (c : Nat) : Bool := decide (c < 0x80)

/-- State of the process-wide transliteration table cache.  The field
cache maps a section to none (never requested), some none (requested,
no table: the marker stored on ImportError) or some (some t).  The
field loads counts load attempts per section, instrumenting the
dynamic import in the source. -/
structure FoldState where
  cache : Nat → Option (Option Table)
  loads : Nat → Nat

/-- Fresh process state: empty cache, no load attempts. -/
def initState : FoldState := ⟨fun _ => none, fun _ => 0⟩

/-- Assignment into the process-wide cache, counting the load attempt
that produced the stored value. -/
def cacheStore (s : FoldState) (sec : Nat) (r : Option Table) : FoldState :=
  ⟨fun t => if t = sec then some r else s.cache t,
   fun t => if t = sec then s.loads t + 1 else s.loads t⟩

/-- Models the table access in _unidecode_keep_umlauts: a hit in
Cache returns the stored entry unchanged; a miss performs one load
from the backing resource and stores the result (none on ImportError,
matching Cache[section] = None). -/
def cacheLookup (load : Nat → Option Table) (s : FoldState) (sec : Nat) :
    Option Table × FoldState :=
  match s.cache sec with
  | some r => (r, s)
  | none => (load sec, cacheStore s sec (load sec))

/-- The number of warnings the character loop issues for one
codepoint that reaches the surrogate check: 1 for a surrogate, else 0. -/
def surrogateWarn (cp : Nat) : Nat :=
  if 0xd800 ≤ cp ∧ cp ≤ 0xdfff then 1 else 0

/-- One iteration of the character loop of _unidecode_keep_umlauts.
Returns the appended piece, the number of warnings issued and the
updated cache state.  ASCII and the retained umlauts pass through;
codepoints above 0xeffff are dropped; a surrogate warns and then falls
through to the table lookup exactly as in the source (where the
surrogate sections hold no table, so the character is dropped). -/
def foldChar (load : Nat → Option Table) (s : FoldState) (cp : Nat) :
    Str × Nat × FoldState :=
  if cp < 0x80 ∨ cp ∈ umlautCodepoints then ([cp], 0, s)
  else if 0xeffff < cp then ([], 0, s)
  else
    match cacheLookup load s (cp >>> 8) with
    | (none, s1) => ([], surrogateWarn cp, s1)
    | (some table, s1) =>
      if h : cp % 256 < table.length then
        (table.get ⟨cp % 256, h⟩, surrogateWarn cp, s1)
      else ([], surrogateWarn cp, s1)

/-- Models _unidecode_keep_umlauts: folds every character, concatenating
the appended pieces in order, summing warnings and threading the cache
state. -/
def foldText (load : Nat → Option Table) : FoldState → Str → Str × Nat × FoldState
  | s, [] => ([], 0, s)
  | s, cp :: rest =>
    let r := foldChar load s cp
    let r2 := foldText load r.2.2 rest
    (r.1 ++ r2.1, r.2.1 + r2.2.1, r2.2.2)

/-- Models unidecode_keep_umlauts: text that encodes as ASCII is
returned unchanged (the Python 3 branch); otherwise the character
folder runs. -/
def unidecode_keep_umlauts (load : Nat → Option Table) (s : FoldState) (text : Str) :
    Str × Nat × FoldState :=
  if text.all isAsciiCp then (text, 0, s) else foldText load s text

/-- Cache-free mirror of foldChar, used to reason about outputs:
looks the table up directly in the backing resource. -/
def pfoldChar (load : Nat → Option Table) (cp : Nat) : Str × Nat :=
  if cp < 0x80 ∨ cp ∈ umlautCodepoints then ([cp], 0)
  else if 0xeffff < cp then ([], 0)
  else
    match load (cp >>> 8) with
    | none => ([], surrogateWarn cp)
    | some table =>
      if h : cp % 256 < table.length then
        (table.get ⟨cp % 256, h⟩, surrogateWarn cp)
      else ([], surrogateWarn cp)

/-- Cache-free mirror of foldText. -/
def pfoldText (load : Nat → Option Table) : Str → Str × Nat
  | [] => ([], 0)
  | cp :: rest =>
    let r := pfoldChar load cp
    let r2 := pfoldText load rest
    (r.1 ++ r2.1, r.2 + r2.2)

/-- Cache-free mirror of unidecode_keep_umlauts. -/
def punidecode (load : Nat → Option Table) (text : Str) : Str × Nat :=
  if text.all isAsciiCp then (text, 0) else pfoldText load text

/-- The extended punctuation set of remove_punctuation: the codepoints
of string.punctuation followed by the four typographic quotes and the
straight double quote appended in the default argument
(the source keeps the spelling punctiation_extended). -/
def punctiation_extended : List Nat :=
  [33, 34, 35, 36, 37, 38, 39, 40, 41, 42, 43, 44, 45, 46, 47,
   58, 59, 60, 61, 62, 63, 64, 91, 92, 93, 94, 95, 96, 123, 124, 125, 126,
   34, 0x201e, 0x201c, 0x201a, 0x2018]

/-- Models remove_punctuation with its default punctuation set: a pure
filter dropping every character of the set. -/
def remove_punctuation (text : Str) : Str :=
  text.filter (fun c => !(decide (c ∈ punctiation_extended)))

/-- Decidable test for an ASCII decimal digit, models the regex [0-9]. -/
def isDigitCp (c : Nat) : Bool := decide (48 ≤ c ∧ c ≤ 57)

/-- Run-collapsing replacement loop: the flag records whether the
previous character was a digit, so each maximal digit run contributes
one placeholder 35 (the character #). -/
def replaceRuns : Bool → Str → Str
  | _, [] => []
  | prev, c :: rest =>
    if isDigitCp c then
      if prev then replaceRuns true rest else 35 :: replaceRuns true rest
    else c :: replaceRuns false rest

/-- Models replace_numeric with repl fixed to the character #: the
by_single_digit flag selects re.sub over [0-9]+ (whole-run collapse),
otherwise re.sub over [0-9] replaces each digit separately. -/
def replace_numeric (text : Str) (by_single_digit : Bool) : Str :=
  if by_single_digit then replaceRuns false text
  else text.map (fun c => if isDigitCp c then 35 else c)

/-- The distinguished token for a purely numeric word. -/
def numToken : Str := [60, 110, 117, 109, 62]

/-- Whitespace codepoints stripped by the Python str.strip method
(characters whose isspace test is true). -/
def wsCodepoints : List Nat :=
  [9, 10, 11, 12, 13, 28, 29, 30, 31, 32, 133, 160,
   0x1680, 0x2000, 0x2001, 0x2002, 0x2003, 0x2004, 0x2005, 0x2006, 0x2007,
   0x2008, 0x2009, 0x200a, 0x2028, 0x2029, 0x202f, 0x205f, 0x3000]

/-- Decidable whitespace test. -/
def isWsCp (c : Nat) : Bool := decide (c ∈ wsCodepoints)

/-- Models str.strip: drop the whitespace prefix and the whitespace
suffix. -/
def stripWs (t : Str) : Str :=
  ((t.dropWhile isWsCp).reverse.dropWhile isWsCp).reverse

/-- Models str.lower restricted to the codepoints the pipeline can
produce (ASCII and the retained umlauts): ASCII uppercase letters and
the uppercase umlauts are lowered, everything else is unchanged. -/
def lowerCp (c : Nat) : Nat :=
  if 65 ≤ c ∧ c ≤ 90 then c + 32
  else if c = 0xc4 then 0xe4
  else if c = 0xd6 then 0xf6
  else if c = 0xdc then 0xfc
  else c

/-- Pointwise lowering of a string. -/
def lowerStr (t : Str) : Str := t.map lowerCp

/-- The pure tail of normalize_word after the character folder:
punctuation strip, digit-run collapse, numeric-token promotion, strip
and lowercase. -/
def postFold (t1 : Str) : Str :=
  lowerStr (stripWs (if replace_numeric (remove_punctuation t1) true = [35]
    then numToken else replace_numeric (remove_punctuation t1) true))

/-- Models normalize_word: fold, strip punctuation, collapse digit
runs, promote a bare placeholder to the numeric token, then strip and
lowercase.  Warnings and the cache state are threaded through. -/
def normalize_word (load : Nat → Option Table) (s : FoldState) (token : Str) :
    Str × Nat × FoldState :=
  let r := unidecode_keep_umlauts load s token
  let t2 := remove_punctuation r.1
  let t3 := replace_numeric t2 true
  let t4 := if t3 = [35] then numToken else t3
  (lowerStr (stripWs t4), r.2.1, r.2.2)

/-- Cache-free mirror of normalize_word, giving its output string. -/
def pnormalize_word (load : Nat → Option Table) (token : Str) : Str :=
  let t1 := (punidecode load token).1
  let t2 := remove_punctuation t1
  let t3 := replace_numeric t2 true
  let t4 := if t3 = [35] then numToken else t3
  lowerStr (stripWs t4)

/-- Models the generator join in process_sentence: single spaces
between the pieces. -/
def joinSpace : List Str → Str
  | [] => []
  | [w] => w
  | w :: rest => w ++ 32 :: joinSpace rest

/-- Normalization of a token list, threading the cache state in order
and summing warnings, as the list comprehension in process_sentence
does. -/
def normalize_words (load : Nat → Option Table) : FoldState → List Str → List Str × Nat × FoldState
  | s, [] => ([], 0, s)
  | s, w :: rest =>
    let r := normalize_word load s w
    let r2 := normalize_words load r.2.2 rest
    (r.1 :: r2.1, r.2.1 + r2.2.1, r2.2.2)

/-- Models process_sentence: tokenize through the external tokenizer,
normalize every token, and if the token count reaches min_words join
the non-empty canonical tokens with spaces and strip, else return the
empty string. -/
def process_sentence (wordTok : Str → List Str) (load : Nat → Option Table)
    (s : FoldState) (sent : Str) (min_words : Nat) : Str × Nat × FoldState :=
  let r := normalize_words load s (wordTok sent)
  if min_words ≤ r.1.length then
    (stripWs (joinSpace (r.1.filter (fun w => !w.isEmpty))), r.2.1, r.2.2)
  else ([], r.2.1, r.2.2)

/-- Sentence loop of process_line: collect the truthy (non-empty)
processed sentences in order. -/
def process_line_aux (wordTok : Str → List Str) (load : Nat → Option Table)
    (min_words : Nat) : FoldState → List Str → List Str × Nat × FoldState
  | s, [] => ([], 0, s)
  | s, sent :: rest =>
    let r := process_sentence wordTok load s sent min_words
    let r2 := process_line_aux wordTok load min_words r.2.2 rest
    ((if r.1.isEmpty then r2.1 else r.1 :: r2.1), r.2.1 + r2.2.1, r2.2.2)

/-- Models process_line: strip the line, segment it with the external
sentence tokenizer, and keep the non-empty processed sentences. -/
def process_line (sentTok wordTok : Str → List Str) (load : Nat → Option Table)
    (s : FoldState) (line : Str) (min_words : Nat) : List Str × Nat × FoldState :=
  process_line_aux wordTok load min_words s (sentTok (stripWs line))

/-- Folding of a sequence of texts, threading the cache state: models
repeated calls of unidecode_keep_umlauts within one process. -/
def foldMany (load : Nat → Option Table) : FoldState → List Str → List Str × Nat × FoldState
  | s, [] => ([], 0, s)
  | s, t :: rest =>
    let r := unidecode_keep_umlauts load s t
    let r2 := foldMany load r.2.2 rest
    (r.1 :: r2.1, r.2.1 + r2.2.1, r2.2.2)

/-- The error raised by the command selector for an unknown language
key; models the KeyError of the dictionary lookup in main, which the
spec names UnsupportedLanguageError. -/
structure UnsupportedLanguageError where
  key : Str

/-- The string de. -/
def strDe : Str := [100, 101]

/-- The string en. -/
def strEn : Str := [101, 110]

/-- The string german. -/
def strGerman : Str := [103, 101, 114, 109, 97, 110]

/-- The string english. -/
def strEnglish : Str := [101, 110, 103, 108, 105, 115, 104]

/-- The LANGUAGES dictionary of main as an association list. -/
def LANGUAGES : List (Str × Str) := [(strDe, strGerman), (strEn, strEnglish)]

/-- Dictionary lookup on an association list. -/
def dictGet (d : List (Str × Str)) (k : Str) : Option Str :=
  (d.find? (fun p => p.1 == k)).map (fun p => p.2)

/-- Models the language selection in main: the first argument is
looked up in LANGUAGES; a missing key raises, which the spec calls
UnsupportedLanguageError. -/
def selectLanguage (arg : Str) : Except UnsupportedLanguageError Str :=
  match dictGet LANGUAGES arg with
  | some v => Except.ok v
  | none => Except.error ⟨arg⟩

/-- A cache state is consistent with the backing resource when every
stored entry is exactly what a load would have produced.  Every state
reachable from the fresh state by fold calls is consistent. -/
def Consistent (load : Nat → Option Table) (s : FoldState) : Prop :=
  ∀ sec r, s.cache sec = some r → r = load sec

/-- Invariant of the instrumented cache: a section never requested has
zero load attempts, and a section with a stored entry has exactly one.
It follows that no section is ever loaded twice. -/
def CacheInv (s : FoldState) : Prop :=
  ∀ sec, (s.cache sec = none → s.loads sec = 0) ∧
    ∀ r, s.cache sec = some r → s.loads sec = 1

/-- The backing resource only holds ASCII replacement strings, as the
spec states for the transliteration tables. -/
def AsciiLoad (load : Nat → Option Table) : Prop :=
  ∀ sec t, load sec = some t → ∀ e ∈ t, ∀ c ∈ e, c < 0x80

/-- Decidable test for a lowercase ASCII letter. -/
def isLowerLetter (c : Nat) : Bool := decide (97 ≤ c ∧ c ≤ 122)

/-- Modelled from the spec wording for replace_numeric in whole-run
mode: replace every maximal contiguous run of ASCII decimal digits
with a single placeholder character.  Used as the reference the
implementation is compared against. -/
def collapseRuns : Str → Str
  | [] => []
  | c :: rest =>
    if isDigitCp c then 35 :: collapseRuns (rest.dropWhile isDigitCp)
    else c :: collapseRuns rest
termination_by t => t.length
decreasing_by
  all_goals simp only [List.length_cons]
  · exact Nat.lt_succ_of_le ((List.dropWhile_sublist _).length_le)
  · exact Nat.lt_succ_self _

/-- Counter of maximal digit runs; the flag records whether the
previous character was a digit. -/
def digitRunsAux : Bool → Str → Nat
  | _, [] => 0
  | prev, c :: rest =>
    if isDigitCp c then
      if prev then digitRunsAux true rest else digitRunsAux true rest + 1
    else digitRunsAux false rest

/-- Number of maximal contiguous runs of ASCII decimal digits in a
string. -/
def digitRuns (t : Str) : Nat := digitRunsAux false t

/-- A backing resource with no tables at all, used for concrete
evaluation (all-ASCII inputs never consult it). -/
def load0 : Nat → Option Table := fun _ => none

/-- A tokenizer returning no tokens, used for concrete evaluation. -/
def tok0 : Str → List Str := fun _ => []

/-- Characters of the run-collapsed string: the placeholder or a
character of the input. -/
lemma mem_replaceRuns (b : Bool) {t : Str} {c : Nat} (h : c ∈ replaceRuns b t) :
    c = 35 ∨ c ∈ t := by
  induction t generalizing b with
  | nil => simp [replaceRuns] at h
  | cons d rest ih =>
    rw [replaceRuns] at h
    by_cases hd : isDigitCp d = true
    · rw [if_pos hd] at h
      cases b
      · rcases List.mem_cons.mp h with h35 | hm
        · exact Or.inl h35
        · rcases ih _ hm with h35 | hm2
          · exact Or.inl h35
          · exact Or.inr (List.mem_cons_of_mem _ hm2)
      · rcases ih _ h with h35 | hm2
        · exact Or.inl h35
        · exact Or.inr (List.mem_cons_of_mem _ hm2)
    · rw [if_neg hd] at h
      rcases List.mem_cons.mp h with hdq | hm
      · exact Or.inr (hdq ▸ List.mem_cons_self _ _)
      · rcases ih _ hm with h35 | hm2
        · exact Or.inl h35
        · exact Or.inr (List.mem_cons_of_mem _ hm2)

/-- The run-collapsed string holds no decimal digit. -/
lemma not_digit_replaceRuns (b : Bool) {t : Str} {c : Nat} (h : c ∈ replaceRuns b t) :
    isDigitCp c = false := by
  induction t generalizing b with
  | nil => simp [replaceRuns] at h
  | cons d rest ih =>
    rw [replaceRuns] at h
    by_cases hd : isDigitCp d = true
    · rw [if_pos hd] at h
      cases b
      · rcases List.mem_cons.mp h with h35 | hm
        · subst h35; decide
        · exact ih _ hm
      · exact ih _ h
    · rw [if_neg hd] at h
      rcases List.mem_cons.mp h with hdq | hm
      · subst hdq; exact Bool.not_eq_true _ |>.mp hd
      · exact ih _ hm

/-- Digit-free strings are fixed by the run-collapsing loop. -/
lemma replaceRuns_eq_self (b : Bool) {t : Str}
    (h : ∀ c ∈ t, isDigitCp c = false) : replaceRuns b t = t := by
  induction t generalizing b with
  | nil => rfl
  | cons d rest ih =>
    have hd : isDigitCp d = false := h d (List.mem_cons_self _ _)
    rw [replaceRuns, if_neg (by simp [hd])]
    exact congrArg (d :: ·) (ih _ fun c hc => h c (List.mem_cons_of_mem _ hc))

/-- The run-collapsing loop adds exactly one placeholder per maximal
digit run. -/
lemma count_replaceRuns (b : Bool) (t : Str) :
    (replaceRuns b t).count 35 = t.count 35 + digitRunsAux b t := by
  induction t generalizing b with
  | nil => rfl
  | cons d rest ih =>
    rw [replaceRuns, digitRunsAux]
    by_cases hd : isDigitCp d = true
    · have hd35 : d ≠ 35 := by
        intro e; subst e; simp [isDigitCp] at hd
      rw [if_pos hd, if_pos hd, List.count_cons_of_ne (fun e => hd35 e.symm)]
      cases b
      · simp only [Bool.false_eq_true, if_false]
        rw [List.count_cons_self, ih]
        omega
      · simp only [if_true]
        rw [ih]
    · rw [if_neg hd, if_neg hd, List.count_cons, List.count_cons, ih]
      omega

/-- Continuing inside a digit run equals restarting after the run. -/
lemma replaceRuns_true_eq (t : Str) :
    replaceRuns true t = replaceRuns false (t.dropWhile isDigitCp) := by
  induction t with
  | nil => rfl
  | cons d rest ih =>
    by_cases hd : isDigitCp d = true
    · rw [replaceRuns, if_pos hd, List.dropWhile_cons_of_pos hd, ih,
        if_pos rfl]
    · rw [replaceRuns, if_neg hd, List.dropWhile_cons_of_neg hd,
        replaceRuns, if_neg hd]

/-- The implementation loop of replace_numeric in whole-run mode
computes the spec-side whole-run collapse. -/
lemma replaceRuns_eq_collapseRuns (t : Str) :
    replaceRuns false t = collapseRuns t := by
  induction t using collapseRuns.induct with
  | case1 => simp [replaceRuns, collapseRuns]
  | case2 c rest hd ih =>
    rw [replaceRuns, if_pos hd, collapseRuns, if_pos hd,
      replaceRuns_true_eq, ih, if_neg (by decide)]
  | case3 c rest hd ih =>
    rw [replaceRuns, if_neg hd, collapseRuns, if_neg hd, ih]

/-- Lowercasing is idempotent. -/
lemma lowerCp_idem (c : Nat) : lowerCp (lowerCp c) = lowerCp c := by
  unfold lowerCp; split_ifs <;> omega

/-- Lowercasing never produces a digit from a non-digit. -/
lemma isDigitCp_lowerCp {c : Nat} (h : isDigitCp c = false) :
    isDigitCp (lowerCp c) = false := by
  simp only [isDigitCp, decide_eq_false_iff_not] at h ⊢
  unfold lowerCp; split_ifs <;> omega

/-- Lowercasing never creates punctuation: a punctuation character in
the lowered string was already present. -/
lemma lowerCp_of_punct {c : Nat} (h : lowerCp c ∈ punctiation_extended) :
    lowerCp c = c := by
  unfold lowerCp at h ⊢
  split_ifs at h ⊢ with h1 h2 h3 h4
  · exfalso
    simp only [punctiation_extended, List.mem_cons, List.not_mem_nil,
      or_false] at h
    omega
  · exact absurd h (by decide)
  · exact absurd h (by decide)
  · exact absurd h (by decide)
  · rfl

/-- Lowercasing preserves the whitespace test. -/
lemma isWsCp_lowerCp (c : Nat) : isWsCp (lowerCp c) = isWsCp c := by
  unfold lowerCp
  split_ifs with h1 h2 h3 h4
  · have l1 : isWsCp (c + 32) = false := by
      simp only [isWsCp, decide_eq_false_iff_not, wsCodepoints, List.mem_cons,
        List.not_mem_nil, or_false]
      omega
    have l2 : isWsCp c = false := by
      simp only [isWsCp, decide_eq_false_iff_not, wsCodepoints, List.mem_cons,
        List.not_mem_nil, or_false]
      omega
    rw [l1, l2]
  · subst h2; decide
  · subst h3; decide
  · subst h4; decide
  · rfl

/-- Lowercasing stays inside the ASCII-plus-umlauts character set. -/
lemma lowerCp_ascii {c : Nat} (h : c < 128 ∨ c ∈ umlautCodepoints) :
    lowerCp c < 128 ∨ lowerCp c ∈ umlautCodepoints := by
  unfold lowerCp
  split_ifs with h1 h2 h3 h4
  · left; omega
  · right; decide
  · right; decide
  · right; decide
  · exact h

/-- The stripping of both ends written with the right-drop helper. -/
lemma stripWs_eq (t : Str) :
    stripWs t = List.rdropWhile isWsCp (t.dropWhile isWsCp) := rfl

/-- Stripping only removes characters. -/
lemma mem_stripWs {t : Str} {c : Nat} (h : c ∈ stripWs t) : c ∈ t := by
  rw [stripWs_eq] at h
  have h1 := (List.rdropWhile_prefix isWsCp (t.dropWhile isWsCp)).sublist.subset h
  exact (List.dropWhile_sublist isWsCp).subset h1

/-- Dropping from a list none of whose characters satisfies the test
is the identity. -/
lemma dropWhile_eq_self_of_forall {p : Nat → Bool} {t : Str}
    (h : ∀ c ∈ t, p c = false) : t.dropWhile p = t := by
  cases t with
  | nil => rfl
  | cons c rest =>
    exact List.dropWhile_cons_of_neg (by simp [h c (List.mem_cons_self _ _)])

/-- Strings without whitespace are fixed by stripping. -/
lemma stripWs_eq_self {t : Str} (h : ∀ c ∈ t, isWsCp c = false) :
    stripWs t = t := by
  unfold stripWs
  rw [dropWhile_eq_self_of_forall h,
    dropWhile_eq_self_of_forall (fun c hc => h c (List.mem_reverse.mp hc)),
    List.reverse_reverse]

/-- Stripping is idempotent. -/
lemma stripWs_idem (t : Str) : stripWs (stripWs t) = stripWs t := by
  rw [stripWs_eq, stripWs_eq]
  have hd2 : List.dropWhile isWsCp (List.dropWhile isWsCp t) =
      List.dropWhile isWsCp t := List.dropWhile_idempotent _ _
  have h1 : List.dropWhile isWsCp
      (List.rdropWhile isWsCp (List.dropWhile isWsCp t)) =
      List.rdropWhile isWsCp (List.dropWhile isWsCp t) := by
    cases hm : List.rdropWhile isWsCp (List.dropWhile isWsCp t) with
    | nil => rfl
    | cons a rest =>
      have hpre : List.rdropWhile isWsCp (List.dropWhile isWsCp t) <+:
          List.dropWhile isWsCp t := List.rdropWhile_prefix _ _
      rw [hm] at hpre
      rcases hpre with ⟨tail, htail⟩
      rw [List.cons_append] at htail
      have hda : isWsCp a = false := by
        by_contra hcon
        have hT : isWsCp a = true := by revert hcon; cases isWsCp a <;> simp
        have he := hd2
        rw [← htail, List.dropWhile_cons_of_pos hT] at he
        have hlen := congrArg List.length he
        have hle : (List.dropWhile isWsCp (rest ++ tail)).length ≤
            (rest ++ tail).length :=
          (List.dropWhile_sublist isWsCp).length_le
        simp only [List.length_cons] at hlen
        omega
      exact List.dropWhile_cons_of_neg (by simp [hda])
  rw [h1, List.rdropWhile_idempotent]

/-- Stripping commutes with lowercasing. -/
lemma stripWs_lowerStr (t : Str) : stripWs (lowerStr t) = lowerStr (stripWs t) := by
  have hcomp : (isWsCp ∘ lowerCp) = isWsCp := funext fun c => isWsCp_lowerCp c
  have hpf : ∀ l : Str, List.dropWhile isWsCp (l.map lowerCp) =
      (List.dropWhile isWsCp l).map lowerCp := by
    intro l
    rw [List.dropWhile_map, hcomp]
  unfold stripWs lowerStr
  rw [hpf, ← List.map_reverse, hpf, List.map_reverse]

/-- Mapping a function that fixes every character is the identity. -/
lemma map_eq_self_of_forall {f : Nat → Nat} {t : Str}
    (h : ∀ c ∈ t, f c = c) : t.map f = t := by
  induction t with
  | nil => rfl
  | cons c rest ih =>
    rw [List.map_cons, h c (List.mem_cons_self _ _),
      ih (fun x hx => h x (List.mem_cons_of_mem _ hx))]

/-- Dropping whitespace does not change the count of a non-whitespace
character. -/
lemma count_dropWhile {p : Nat → Bool} {a : Nat} (h : p a = false) (l : Str) :
    (l.dropWhile p).count a = l.count a := by
  induction l with
  | nil => rfl
  | cons c rest ih =>
    by_cases hc : p c = true
    · have hne : a ≠ c := fun e => by subst e; rw [hc] at h; cases h
      rw [List.dropWhile_cons_of_pos hc, ih, List.count_cons_of_ne hne]
    · rw [List.dropWhile_cons_of_neg hc]

/-- Stripping does not change the count of a non-whitespace character. -/
lemma count_stripWs {a : Nat} (h : isWsCp a = false) (t : Str) :
    (stripWs t).count a = t.count a := by
  unfold stripWs
  rw [List.count_reverse, count_dropWhile h, List.count_reverse,
    count_dropWhile h]

/-- Lowercasing does not change the count of the placeholder. -/
lemma count_lowerStr (t : Str) : (lowerStr t).count 35 = t.count 35 := by
  induction t with
  | nil => rfl
  | cons c rest ih =>
    unfold lowerStr at ih ⊢
    rw [List.map_cons]
    by_cases hc : c = 35
    · subst hc
      rw [show lowerCp 35 = 35 from rfl, List.count_cons_self,
        List.count_cons_self, ih]
    · have h2 : lowerCp c ≠ 35 := by
        intro e
        unfold lowerCp at e
        split_ifs at e <;> omega
      rw [List.count_cons_of_ne (fun e => h2 e.symm),
        List.count_cons_of_ne (fun e => hc e.symm), ih]

/-- Cache field of a store. -/
lemma cacheStore_cache (s : FoldState) (sec : Nat) (r : Option Table) (t : Nat) :
    (cacheStore s sec r).cache t = if t = sec then some r else s.cache t := rfl

/-- Load counter of a store. -/
lemma cacheStore_loads (s : FoldState) (sec : Nat) (r : Option Table) (t : Nat) :
    (cacheStore s sec r).loads t = if t = sec then s.loads t + 1 else s.loads t := rfl

/-- A cached section is answered from the cache, with no state change. -/
lemma cacheLookup_hit {load : Nat → Option Table} {s : FoldState} {sec : Nat}
    {r : Option Table} (h : s.cache sec = some r) :
    cacheLookup load s sec = (r, s) := by
  unfold cacheLookup; rw [h]

/-- A fresh section is answered by one load, which is stored. -/
lemma cacheLookup_miss {load : Nat → Option Table} {s : FoldState} {sec : Nat}
    (h : s.cache sec = none) :
    cacheLookup load s sec = (load sec, cacheStore s sec (load sec)) := by
  unfold cacheLookup; rw [h]

/-- The fresh state is consistent with any backing resource. -/
lemma consistent_initState (load : Nat → Option Table) :
    Consistent load initState := fun _ _ h => Option.noConfusion h

/-- Under consistency, a lookup answers exactly what a direct load
would. -/
lemma cacheLookup_fst {load : Nat → Option Table} {s : FoldState} {sec : Nat}
    (h : Consistent load s) : (cacheLookup load s sec).1 = load sec := by
  cases hc : s.cache sec with
  | none => rw [cacheLookup_miss hc]
  | some r => rw [cacheLookup_hit hc]; exact h sec r hc

/-- Lookups preserve consistency. -/
lemma cacheLookup_consistent {load : Nat → Option Table} {s : FoldState}
    {sec : Nat} (h : Consistent load s) :
    Consistent load (cacheLookup load s sec).2 := by
  cases hc : s.cache sec with
  | some r => rw [cacheLookup_hit hc]; exact h
  | none =>
    rw [cacheLookup_miss hc]
    intro t r hr
    rw [cacheStore_cache] at hr
    by_cases ht : t = sec
    · subst ht
      rw [if_pos rfl] at hr
      exact (Option.some.inj hr).symm
    · rw [if_neg ht] at hr
      exact h t r hr

/-- From a consistent state the character step computes the cache-free
step, and keeps the state consistent. -/
lemma foldChar_bridge {load : Nat → Option Table} {s : FoldState} (cp : Nat)
    (h : Consistent load s) :
    (foldChar load s cp).1 = (pfoldChar load cp).1 ∧
    (foldChar load s cp).2.1 = (pfoldChar load cp).2 ∧
    Consistent load (foldChar load s cp).2.2 := by
  unfold foldChar pfoldChar
  by_cases h1 : cp < 0x80 ∨ cp ∈ umlautCodepoints
  · rw [if_pos h1, if_pos h1]; exact ⟨rfl, rfl, h⟩
  · rw [if_neg h1, if_neg h1]
    by_cases h2 : 0xeffff < cp
    · rw [if_pos h2, if_pos h2]; exact ⟨rfl, rfl, h⟩
    · rw [if_neg h2, if_neg h2]
      rcases hck : cacheLookup load s (cp >>> 8) with ⟨r, s1⟩
      have hfst : (cacheLookup load s (cp >>> 8)).1 = load (cp >>> 8) :=
        cacheLookup_fst h
      have hcons : Consistent load (cacheLookup load s (cp >>> 8)).2 :=
        cacheLookup_consistent h
      rw [hck] at hfst hcons
      have hl : load (cp >>> 8) = r := hfst.symm
      have hc1 : Consistent load s1 := hcons
      rw [hl]
      cases r with
      | none => exact ⟨rfl, rfl, hc1⟩
      | some table =>
        dsimp only
        by_cases hpos : cp % 256 < table.length
        · rw [dif_pos hpos, dif_pos hpos]; exact ⟨rfl, rfl, hc1⟩
        · rw [dif_neg hpos, dif_neg hpos]; exact ⟨rfl, rfl, hc1⟩

/-- From a consistent state the character folder computes the
cache-free fold, and keeps the state consistent. -/
lemma foldText_bridge {load : Nat → Option Table} :
    ∀ (text : Str) {s : FoldState}, Consistent load s →
    (foldText load s text).1 = (pfoldText load text).1 ∧
    (foldText load s text).2.1 = (pfoldText load text).2 ∧
    Consistent load (foldText load s text).2.2 := by
  intro text
  induction text with
  | nil => intro s h; exact ⟨rfl, rfl, h⟩
  | cons cp rest ih =>
    intro s h
    obtain ⟨e1, e2, hc⟩ := foldChar_bridge cp h
    obtain ⟨f1, f2, fc⟩ := ih hc
    simp only [foldText, pfoldText]
    exact ⟨by rw [e1, f1], by rw [e2, f2], fc⟩

/-- From a consistent state the ASCII wrapper computes the cache-free
fold, and keeps the state consistent. -/
lemma unidecode_bridge {load : Nat → Option Table} (text : Str) {s : FoldState}
    (h : Consistent load s) :
    (unidecode_keep_umlauts load s text).1 = (punidecode load text).1 ∧
    (unidecode_keep_umlauts load s text).2.1 = (punidecode load text).2 ∧
    Consistent load (unidecode_keep_umlauts load s text).2.2 := by
  unfold unidecode_keep_umlauts punidecode
  by_cases ha : text.all isAsciiCp
  · rw [if_pos ha, if_pos ha]; exact ⟨rfl, rfl, h⟩
  · rw [if_neg ha, if_neg ha]; exact foldText_bridge text h

/-- From a consistent state normalize_word computes the cache-free
normalization, and keeps the state consistent. -/
lemma normalize_word_bridge {load : Nat → Option Table} (token : Str)
    {s : FoldState} (h : Consistent load s) :
    (normalize_word load s token).1 = pnormalize_word load token ∧
    (normalize_word load s token).2.1 = (punidecode load token).2 ∧
    Consistent load (normalize_word load s token).2.2 := by
  obtain ⟨e1, e2, hc⟩ := unidecode_bridge token h
  simp only [normalize_word, pnormalize_word]
  exact ⟨by rw [e1], e2, hc⟩

/-- The fresh state satisfies the cache invariant. -/
lemma cacheInv_initState : CacheInv initState :=
  fun _ => ⟨fun _ => rfl, fun _ hr => Option.noConfusion hr⟩

/-- Lookups preserve the cache invariant. -/
lemma cacheInv_cacheLookup {load : Nat → Option Table} {s : FoldState}
    {sec : Nat} (h : CacheInv s) : CacheInv (cacheLookup load s sec).2 := by
  cases hc : s.cache sec with
  | some r => rw [cacheLookup_hit hc]; exact h
  | none =>
    rw [cacheLookup_miss hc]
    intro t
    constructor
    · intro ht
      rw [cacheStore_cache] at ht
      by_cases hts : t = sec
      · rw [if_pos hts] at ht; exact Option.noConfusion ht
      · rw [if_neg hts] at ht
        rw [cacheStore_loads, if_neg hts]
        exact (h t).1 ht
    · intro r hr
      rw [cacheStore_cache] at hr
      rw [cacheStore_loads]
      by_cases hts : t = sec
      · rw [if_pos hts, hts, (h sec).1 hc]
      · rw [if_neg hts] at hr
        rw [if_neg hts]
        exact (h t).2 r hr

/-- The character step preserves the cache invariant. -/
lemma cacheInv_foldChar {load : Nat → Option Table} {s : FoldState} {cp : Nat}
    (h : CacheInv s) : CacheInv (foldChar load s cp).2.2 := by
  unfold foldChar
  by_cases h1 : cp < 0x80 ∨ cp ∈ umlautCodepoints
  · rw [if_pos h1]; exact h
  · rw [if_neg h1]
    by_cases h2 : 0xeffff < cp
    · rw [if_pos h2]; exact h
    · rw [if_neg h2]
      rcases hck : cacheLookup load s (cp >>> 8) with ⟨r, s1⟩
      have hs1 : CacheInv s1 := by
        have h3 : CacheInv (cacheLookup load s (cp >>> 8)).2 :=
          cacheInv_cacheLookup h
        rw [hck] at h3; exact h3
      cases r with
      | none => exact hs1
      | some table =>
        dsimp only
        by_cases hpos : cp % 256 < table.length
        · rw [dif_pos hpos]; exact hs1
        · rw [dif_neg hpos]; exact hs1

/-- The character folder preserves the cache invariant. -/
lemma cacheInv_foldText {load : Nat → Option Table} :
    ∀ (text : Str) {s : FoldState}, CacheInv s →
    CacheInv (foldText load s text).2.2 := by
  intro text
  induction text with
  | nil => intro s h; exact h
  | cons cp rest ih =>
    intro s h
    simp only [foldText]
    exact ih (cacheInv_foldChar h)

/-- The ASCII wrapper preserves the cache invariant. -/
lemma cacheInv_unidecode {load : Nat → Option Table} (text : Str)
    {s : FoldState} (h : CacheInv s) :
    CacheInv (unidecode_keep_umlauts load s text).2.2 := by
  unfold unidecode_keep_umlauts
  by_cases ha : text.all isAsciiCp
  · rw [if_pos ha]; exact h
  · rw [if_neg ha]; exact cacheInv_foldText text h

/-- Any sequence of fold calls preserves the cache invariant. -/
lemma cacheInv_foldMany {load : Nat → Option Table} :
    ∀ (texts : List Str) {s : FoldState}, CacheInv s →
    CacheInv (foldMany load s texts).2.2 := by
  intro texts
  induction texts with
  | nil => intro s h; exact h
  | cons t rest ih =>
    intro s h
    simp only [foldMany]
    exact ih (cacheInv_unidecode t h)

/-- Under the cache invariant no section was loaded more than once. -/
lemma cacheInv_loads_le {s : FoldState} (h : CacheInv s) (sec : Nat) :
    s.loads sec ≤ 1 := by
  cases hc : s.cache sec with
  | none => rw [(h sec).1 hc]; omega
  | some r => rw [(h sec).2 r hc]

/-- Characters of the cache-free fold of an ASCII-table resource are
ASCII or retained umlauts. -/
lemma pfoldChar_ascii {load : Nat → Option Table} {cp : Nat}
    (hA : AsciiLoad load) :
    ∀ c ∈ (pfoldChar load cp).1, c < 128 ∨ c ∈ umlautCodepoints := by
  unfold pfoldChar
  by_cases h1 : cp < 0x80 ∨ cp ∈ umlautCodepoints
  · rw [if_pos h1]
    intro c hc
    rw [List.mem_singleton] at hc
    subst hc
    exact h1
  · rw [if_neg h1]
    by_cases h2 : 0xeffff < cp
    · rw [if_pos h2]; intro c hc; simp at hc
    · rw [if_neg h2]
      cases hl : load (cp >>> 8) with
      | none => intro c hc; simp at hc
      | some table =>
        dsimp only
        by_cases hpos : cp % 256 < table.length
        · rw [dif_pos hpos]
          intro c hc
          exact Or.inl
            (hA _ table hl _ (List.get_mem table _ hpos) c hc)
        · rw [dif_neg hpos]; intro c hc; simp at hc

/-- The whole cache-free fold stays inside ASCII plus retained
umlauts. -/
lemma pfoldText_ascii {load : Nat → Option Table} (hA : AsciiLoad load) :
    ∀ (text : Str), ∀ c ∈ (pfoldText load text).1,
    c < 128 ∨ c ∈ umlautCodepoints := by
  intro text
  induction text with
  | nil => intro c hc; simp [pfoldText] at hc
  | cons cp rest ih =>
    intro c hc
    simp only [pfoldText, List.mem_append] at hc
    rcases hc with hc | hc
    · exact pfoldChar_ascii hA c hc
    · exact ih c hc

/-- The wrapper output stays inside ASCII plus retained umlauts. -/
lemma punidecode_ascii {load : Nat → Option Table} (hA : AsciiLoad load)
    (text : Str) :
    ∀ c ∈ (punidecode load text).1, c < 128 ∨ c ∈ umlautCodepoints := by
  unfold punidecode
  by_cases ha : text.all isAsciiCp
  · rw [if_pos ha]
    intro c hc
    left
    have h2 := List.all_eq_true.mp ha c hc
    simpa [isAsciiCp] using h2
  · rw [if_neg ha]; exact pfoldText_ascii hA text

/-- An ASCII or retained character is appended unchanged, with no
warning and no state change. -/
lemma foldChar_retained {load : Nat → Option Table} {s : FoldState} {cp : Nat}
    (h : cp < 128 ∨ cp ∈ umlautCodepoints) :
    foldChar load s cp = ([cp], 0, s) := by
  unfold foldChar; rw [if_pos h]

/-- A string of ASCII and retained characters folds to itself, with no
warnings and no state change, from any cache state. -/
lemma foldText_retained {load : Nat → Option Table} :
    ∀ (text : Str) {s : FoldState},
    (∀ c ∈ text, c < 128 ∨ c ∈ umlautCodepoints) →
    foldText load s text = (text, 0, s) := by
  intro text
  induction text with
  | nil => intro s _; rfl
  | cons cp rest ih =>
    intro s h
    simp only [foldText]
    rw [foldChar_retained (h cp (List.mem_cons_self _ _))]
    dsimp only
    rw [ih (fun c hc => h c (List.mem_cons_of_mem _ hc))]
    rfl

/-- The wrapper fixes strings of ASCII and retained characters, from
any cache state. -/
lemma unidecode_retained {load : Nat → Option Table} {s : FoldState}
    (text : Str) (h : ∀ c ∈ text, c < 128 ∨ c ∈ umlautCodepoints) :
    unidecode_keep_umlauts load s text = (text, 0, s) := by
  unfold unidecode_keep_umlauts
  by_cases ha : text.all isAsciiCp
  · rw [if_pos ha]
  · rw [if_neg ha]; exact foldText_retained text h

/-- Unfolding of replace_numeric in whole-run mode. -/
lemma replace_numeric_true (t : Str) :
    replace_numeric t true = replaceRuns false t := by
  unfold replace_numeric; rw [if_pos rfl]

/-- The output of normalize_word is the pure pipeline tail applied to
the folded token. -/
lemma normalize_word_fst_eq (load : Nat → Option Table) (s : FoldState)
    (token : Str) :
    (normalize_word load s token).1 =
    postFold (unidecode_keep_umlauts load s token).1 := rfl

/-- The cache-free normalization is the pure pipeline tail applied to
the cache-free fold. -/
lemma pnormalize_word_eq (load : Nat → Option Table) (token : Str) :
    pnormalize_word load token = postFold (punidecode load token).1 := rfl

/-- Characters of the pipeline tail, outside the numeric-token case,
are lowered characters of the collapsed string. -/
lemma mem_postFold {t1 : Str} {c : Nat} (h : c ∈ postFold t1)
    (hne : replace_numeric (remove_punctuation t1) true ≠ [35]) :
    ∃ c0, c0 ∈ replaceRuns false (remove_punctuation t1) ∧ c = lowerCp c0 := by
  unfold postFold at h
  rw [if_neg hne, replace_numeric_true] at h
  unfold lowerStr at h
  rcases List.mem_map.mp h with ⟨c0, hc0, e⟩
  exact ⟨c0, mem_stripWs hc0, e.symm⟩

/-- A bare-placeholder collapse yields the numeric token. -/
lemma postFold_num {t1 : Str}
    (he : replace_numeric (remove_punctuation t1) true = [35]) :
    postFold t1 = numToken := by
  unfold postFold; rw [if_pos he]; decide

/-- The pipeline tail never outputs a decimal digit. -/
lemma postFold_no_digit (t1 : Str) :
    ∀ c ∈ postFold t1, isDigitCp c = false := by
  intro c h
  by_cases hne : replace_numeric (remove_punctuation t1) true = [35]
  · rw [postFold_num hne] at h
    simp only [numToken, List.mem_cons, List.not_mem_nil, or_false] at h
    rcases h with rfl | rfl | rfl | rfl | rfl <;> decide
  · obtain ⟨c0, hc0, e⟩ := mem_postFold h hne
    rw [e]
    exact isDigitCp_lowerCp (not_digit_replaceRuns false hc0)

/-- The only punctuation the pipeline tail can output is the
placeholder, except when the output is the numeric token itself. -/
lemma postFold_punct (t1 : Str) :
    postFold t1 = numToken ∨
    ∀ c ∈ postFold t1, c ∈ punctiation_extended → c = 35 := by
  by_cases hne : replace_numeric (remove_punctuation t1) true = [35]
  · exact Or.inl (postFold_num hne)
  · right
    intro c hc hpunct
    obtain ⟨c0, hc0, e⟩ := mem_postFold hc hne
    have e2 : lowerCp c0 = c0 := lowerCp_of_punct (by rw [← e]; exact hpunct)
    rcases mem_replaceRuns false hc0 with h35 | hmem
    · rw [e, e2, h35]
    · exfalso
      have hnp := (List.mem_filter.mp hmem).2
      simp only [Bool.not_eq_true', decide_eq_false_iff_not] at hnp
      rw [e, e2] at hpunct
      exact hnp hpunct

/-- Outside the numeric-token case, the number of placeholders in the
pipeline tail output is the number of maximal digit runs surviving
punctuation removal. -/
lemma postFold_count (t1 : Str)
    (hne : replace_numeric (remove_punctuation t1) true ≠ [35]) :
    (postFold t1).count 35 = digitRuns (remove_punctuation t1) := by
  unfold postFold
  rw [if_neg hne, count_lowerStr, count_stripWs (by decide),
    replace_numeric_true, count_replaceRuns]
  have hz : (remove_punctuation t1).count 35 = 0 := by
    rw [List.count_eq_zero]
    intro hmem
    have hnp := (List.mem_filter.mp hmem).2
    simp only [Bool.not_eq_true', decide_eq_false_iff_not] at hnp
    exact hnp (by decide)
  rw [hz, Nat.zero_add]
  rfl

/-- The pipeline tail output is already stripped. -/
lemma postFold_strip (t1 : Str) : stripWs (postFold t1) = postFold t1 := by
  unfold postFold
  rw [stripWs_lowerStr, stripWs_idem]

/-- The pipeline tail output is already lowercase. -/
lemma postFold_lower (t1 : Str) : ∀ c ∈ postFold t1, lowerCp c = c := by
  intro c h
  by_cases hne : replace_numeric (remove_punctuation t1) true = [35]
  · rw [postFold_num hne] at h
    simp only [numToken, List.mem_cons, List.not_mem_nil, or_false] at h
    rcases h with rfl | rfl | rfl | rfl | rfl <;> decide
  · obtain ⟨c0, _, e⟩ := mem_postFold h hne
    rw [e, lowerCp_idem]

/-- With an ASCII-table resource the pipeline tail output stays inside
ASCII plus retained umlauts. -/
lemma postFold_ascii {load : Nat → Option Table} (hA : AsciiLoad load)
    (token : Str) :
    ∀ c ∈ postFold (punidecode load token).1,
    c < 128 ∨ c ∈ umlautCodepoints := by
  intro c h
  by_cases hne : replace_numeric (remove_punctuation (punidecode load token).1)
      true = [35]
  · rw [postFold_num hne] at h
    left
    simp only [numToken, List.mem_cons, List.not_mem_nil, or_false] at h
    rcases h with rfl | rfl | rfl | rfl | rfl <;> decide
  · obtain ⟨c0, hc0, e⟩ := mem_postFold h hne
    rcases mem_replaceRuns false hc0 with h35 | hmem
    · rw [e, h35]; left; decide
    · have hmem1 := (List.mem_filter.mp hmem).1
      exact e ▸ lowerCp_ascii (punidecode_ascii hA token c0 hmem1)

/-- A string already in canonical shape is a fixed point of
normalize_word, from any cache state. -/
lemma normalize_word_fixed {load : Nat → Option Table} {s : FoldState}
    {v : Str}
    (hchar : ∀ c ∈ v, c < 128 ∨ c ∈ umlautCodepoints)
    (hpunct : ∀ c ∈ v, c ∉ punctiation_extended)
    (hdigit : ∀ c ∈ v, isDigitCp c = false)
    (hlower : ∀ c ∈ v, lowerCp c = c)
    (hstrip : stripWs v = v)
    (h35 : v ≠ [35]) :
    (normalize_word load s v).1 = v := by
  rw [normalize_word_fst_eq, unidecode_retained v hchar]
  show postFold v = v
  have hrp : remove_punctuation v = v := by
    unfold remove_punctuation
    apply List.filter_eq_self.mpr
    intro a ha
    simp [hpunct a ha]
  have hrn : replace_numeric v true = v := by
    rw [replace_numeric_true]
    exact replaceRuns_eq_self false hdigit
  unfold postFold
  rw [hrp, hrn, if_neg h35, hstrip]
  exact map_eq_self_of_forall hlower

/-- The word list built by process_sentence has exactly one entry per
raw token, so its length test is a test of the raw token count. -/
lemma normalize_words_length {load : Nat → Option Table} :
    ∀ (ws : List Str) {s : FoldState},
    (normalize_words load s ws).1.length = ws.length := by
  intro ws
  induction ws with
  | nil => intro s; rfl
  | cons w rest ih =>
    intro s
    simp only [normalize_words, List.length_cons]
    rw [ih]

/-- A token of lowercase ASCII letters is a fixed point of
normalize_word, from any cache state. -/
lemma normalize_word_lower_fixed {load : Nat → Option Table} {s : FoldState}
    {token : Str} (h : token.all isLowerLetter = true) :
    (normalize_word load s token).1 = token := by
  have hall : ∀ c ∈ token, 97 ≤ c ∧ c ≤ 122 := by
    intro c hc
    have h2 := List.all_eq_true.mp h c hc
    simpa [isLowerLetter] using h2
  apply normalize_word_fixed
  · intro c hc; have := hall c hc; left; omega
  · intro c hc hpunct
    have := hall c hc
    simp only [punctiation_extended, List.mem_cons, List.not_mem_nil,
      or_false] at hpunct
    omega
  · intro c hc
    have := hall c hc
    simp only [isDigitCp, decide_eq_false_iff_not]
    omega
  · intro c hc
    have := hall c hc
    unfold lowerCp
    split_ifs <;> omega
  · apply stripWs_eq_self
    intro c hc
    have := hall c hc
    simp only [isWsCp, decide_eq_false_iff_not, wsCodepoints, List.mem_cons,
      List.not_mem_nil, or_false]
    omega
  · intro e
    have := hall 35 (e ▸ List.mem_cons_self 35 [])
    omega

/-- The character step on a surrogate codepoint whose section is
uncached and absent from the backing resource: one warning, nothing
appended, the no-table marker stored. -/
lemma foldChar_surrogate {load : Nat → Option Table} {s : FoldState} {cp : Nat}
    (h1 : 0xd800 ≤ cp) (h2 : cp ≤ 0xdfff)
    (hc : s.cache (cp >>> 8) = none) (hl : load (cp >>> 8) = none) :
    foldChar load s cp = ([], 1, cacheStore s (cp >>> 8) none) := by
  unfold foldChar
  have hna : ¬(cp < 128 ∨ cp ∈ umlautCodepoints) := by
    intro hcon
    rcases hcon with hlt | hmem
    · omega
    · simp only [umlautCodepoints, List.mem_cons, List.not_mem_nil,
        or_false] at hmem
      omega
  rw [if_neg hna, if_neg (by omega : ¬(0xeffff < cp)),
    cacheLookup_miss hc, hl]
  dsimp only
  unfold surrogateWarn
  rw [if_pos ⟨h1, h2⟩]

/-- Claim C1, counterexample: normalization is not idempotent as
stated.  The token 42 normalizes to the numeric token, whose angle
brackets are stripped as punctuation on a second pass, so
re-normalizing the result changes it. -/
theorem c1_counterexample :
    (normalize_word load0 (normalize_word load0 initState [52, 50]).2.2
      (normalize_word load0 initState [52, 50]).1).1 ≠
    (normalize_word load0 initState [52, 50]).1 := by decide

/-- Claim C1, amended: normalize_word is idempotent on every token
whose canonical form holds no placeholder character and is not the
numeric token (for an ASCII-table resource and a cache consistent with
it); in particular every token of lowercase ASCII letters maps to
itself. -/
theorem c1_amended :
    (∀ (load : Nat → Option Table) (s : FoldState) (token : Str),
      AsciiLoad load → Consistent load s →
      35 ∉ (normalize_word load s token).1 →
      (normalize_word load s token).1 ≠ numToken →
      ∀ s2 : FoldState,
        (normalize_word load s2 (normalize_word load s token).1).1 =
        (normalize_word load s token).1) ∧
    (∀ (load : Nat → Option Table) (s : FoldState) (token : Str),
      token.all isLowerLetter = true →
      (normalize_word load s token).1 = token) := by
  constructor
  · intro load s token hA hC h35 hnum s2
    have hv : (normalize_word load s token).1 =
        postFold (punidecode load token).1 := by
      rw [(normalize_word_bridge token hC).1, pnormalize_word_eq]
    rw [hv] at h35 hnum ⊢
    apply normalize_word_fixed
    · exact postFold_ascii hA token
    · intro c hc hpunct
      rcases postFold_punct (punidecode load token).1 with hcase | hfa
      · exact absurd hcase hnum
      · have e := hfa c hc hpunct
        rw [e] at hc
        exact absurd hc h35
    · exact postFold_no_digit _
    · exact postFold_lower _
    · exact postFold_strip _
    · intro e
      rw [e] at h35
      exact h35 (List.mem_cons_self _ _)
  · intro load s token h
    exact normalize_word_lower_fixed h

/-- Witness for the amended C1 at a concrete token. -/
theorem c1_amended_witness :
    (normalize_word load0 initState
      (normalize_word load0 initState [97, 98]).1).1 =
    (normalize_word load0 initState [97, 98]).1 :=
  c1_amended.1 load0 initState [97, 98]
    (fun _ _ h => Option.noConfusion h)
    (consistent_initState load0)
    (by decide) (by decide) initState

/-- Claim C2: the acceptance test of process_sentence is decided on
the raw token count; a sentence below the threshold yields nothing,
one at or above it yields the stripped space-join of the non-empty
canonical tokens, regardless of how many survive. -/
theorem c2_raw_token_threshold :
    ∀ (wordTok : Str → List Str) (load : Nat → Option Table) (s : FoldState)
      (sent : Str) (mw : Nat),
    ((wordTok sent).length < mw →
      (process_sentence wordTok load s sent mw).1 = []) ∧
    (mw ≤ (wordTok sent).length →
      (process_sentence wordTok load s sent mw).1 =
      stripWs (joinSpace
        ((normalize_words load s (wordTok sent)).1.filter
          (fun w => !w.isEmpty)))) := by
  intro wordTok load s sent mw
  have hlen : (normalize_words load s (wordTok sent)).1.length =
      (wordTok sent).length := normalize_words_length (wordTok sent)
  constructor
  · intro h
    have hn : ¬mw ≤ (normalize_words load s (wordTok sent)).1.length := by
      rw [hlen]; omega
    simp only [process_sentence]
    rw [if_neg hn]
  · intro h
    have hp : mw ≤ (normalize_words load s (wordTok sent)).1.length := by
      rw [hlen]; omega
    simp only [process_sentence]
    rw [if_pos hp]

/-- Witness for C2 at a concrete short sentence. -/
theorem c2_witness : (process_sentence tok0 load0 initState [] 4).1 = [] :=
  (c2_raw_token_threshold tok0 load0 initState [] 4).1 (by decide)

/-- Claim C3: a surrogate codepoint produces exactly one warning, is
dropped (contributes nothing to the output), raises no error, and the
fold continues over the remaining characters; stated for a section
that is uncached and has no table in the backing resource, which is
the factual situation of the surrogate sections. -/
theorem c3_surrogate_warn_drop :
    ∀ (load : Nat → Option Table) (s : FoldState) (cp : Nat) (rest : Str),
    0xd800 ≤ cp → cp ≤ 0xdfff →
    s.cache (cp >>> 8) = none → load (cp >>> 8) = none →
    foldChar load s cp = ([], 1, cacheStore s (cp >>> 8) none) ∧
    (foldText load s (cp :: rest)).1 =
      (foldText load (cacheStore s (cp >>> 8) none) rest).1 ∧
    (foldText load s (cp :: rest)).2.1 =
      1 + (foldText load (cacheStore s (cp >>> 8) none) rest).2.1 := by
  intro load s cp rest h1 h2 hc hl
  have hstep := foldChar_surrogate h1 h2 hc hl
  refine ⟨hstep, ?_, ?_⟩
  · simp only [foldText]
    rw [hstep]
    rfl
  · simp only [foldText]
    rw [hstep]

/-- Witness for C3 at the first surrogate codepoint. -/
theorem c3_witness :
    foldChar load0 initState 0xd800 =
      ([], 1, cacheStore initState (0xd800 >>> 8) none) :=
  (c3_surrogate_warn_drop load0 initState 0xd800 [97]
    (by decide) (by decide) rfl rfl).1

/-- Claim C4, counterexample: the canonical token of 42 is the numeric
token, which contains the ASCII punctuation character 60, so canonical
tokens are not free of ASCII punctuation as stated. -/
theorem c4_counterexample :
    60 ∈ (normalize_word load0 initState [52, 50]).1 ∧
    60 ∈ punctiation_extended := by decide

/-- Claim C4, amended: canonical tokens hold no decimal digit; the
only ASCII punctuation they can hold is the placeholder, except for
the literal numeric token with its angle brackets; the collapse adds
exactly one placeholder per maximal digit run, so the placeholder
count of the output equals the number of maximal digit runs left
after folding and punctuation removal. -/
theorem c4_amended :
    ∀ (load : Nat → Option Table) (s : FoldState) (token : Str),
    (∀ c ∈ (normalize_word load s token).1, isDigitCp c = false) ∧
    ((normalize_word load s token).1 = numToken ∨
      ∀ c ∈ (normalize_word load s token).1,
        c ∈ punctiation_extended → c = 35) ∧
    (∀ t : Str,
      (replace_numeric t true).count 35 = t.count 35 + digitRuns t) ∧
    ((normalize_word load s token).1 = numToken ∨
      (normalize_word load s token).1.count 35 =
        digitRuns
          (remove_punctuation (unidecode_keep_umlauts load s token).1)) := by
  intro load s token
  rw [normalize_word_fst_eq]
  refine ⟨postFold_no_digit _, postFold_punct _, ?_, ?_⟩
  · intro t
    rw [replace_numeric_true]
    exact count_replaceRuns false t
  · by_cases hne : replace_numeric
        (remove_punctuation (unidecode_keep_umlauts load s token).1) true = [35]
    · exact Or.inl (postFold_num hne)
    · exact Or.inr (postFold_count _ hne)

/-- Witness for the amended C4 at a concrete token and character. -/
theorem c4_amended_witness : isDigitCp 97 = false :=
  (c4_amended load0 initState [97, 98, 99, 49, 50, 51]).1 97 (by decide)

/-- Claim C5: digit runs collapse whole-run: abc123 normalizes to a
token with exactly one placeholder, 42 normalizes to exactly the
numeric token, the whole-run mode of replace_numeric computes the
spec-side maximal-run collapse, and a bare-placeholder result is
promoted to the numeric token. -/
theorem c5_digit_collapse :
    (∀ (load : Nat → Option Table) (s : FoldState),
      (normalize_word load s [97, 98, 99, 49, 50, 51]).1 = [97, 98, 99, 35] ∧
      ((normalize_word load s [97, 98, 99, 49, 50, 51]).1.count 35 = 1) ∧
      (normalize_word load s [52, 50]).1 = numToken) ∧
    (∀ t : Str, replace_numeric t true = collapseRuns t) ∧
    (∀ (load : Nat → Option Table) (s : FoldState) (token : Str),
      replace_numeric
        (remove_punctuation (unidecode_keep_umlauts load s token).1) true =
        [35] →
      (normalize_word load s token).1 = numToken) := by
  refine ⟨fun load s => ⟨rfl, rfl, rfl⟩, ?_, ?_⟩
  · intro t
    rw [replace_numeric_true, replaceRuns_eq_collapseRuns]
  · intro load s token he
    rw [normalize_word_fst_eq]
    exact postFold_num he

/-- Witness for C5 at the purely numeric token. -/
theorem c5_witness : (normalize_word load0 initState [52, 50]).1 = numToken :=
  c5_digit_collapse.2.2 load0 initState [52, 50] (by decide)

/-- Claim C6: retained umlaut codepoints pass through the character
folder verbatim with no table lookup and no state change, whatever the
backing resource and cache state, and Mueller with u-umlaut normalizes
to its lowercase form keeping the umlaut. -/
theorem c6_retained_umlauts :
    ∀ (load : Nat → Option Table) (s : FoldState),
    (∀ cp ∈ umlautCodepoints, foldChar load s cp = ([cp], 0, s)) ∧
    (normalize_word load s [77, 252, 108, 108, 101, 114]).1 =
      [109, 252, 108, 108, 101, 114] := by
  intro load s
  constructor
  · intro cp hcp
    exact foldChar_retained (Or.inr hcp)
  · rw [normalize_word_fst_eq, unidecode_retained _ (by decide)]
    show postFold [77, 252, 108, 108, 101, 114] = [109, 252, 108, 108, 101, 114]
    decide

/-- Witness for C6 at the u-umlaut codepoint. -/
theorem c6_witness : foldChar load0 initState 0xfc = ([0xfc], 0, initState) :=
  (c6_retained_umlauts load0 initState).1 0xfc (by decide)

/-- Claim C7: the cache is write-once per section: a first lookup
performs exactly one load and stores its result, a stored no-table
marker is answered with none and no state change, and across any
sequence of fold calls from the fresh state every section is loaded at
most once. -/
theorem c7_cache_write_once :
    ∀ load : Nat → Option Table,
    (∀ (s : FoldState) (sec : Nat), s.cache sec = none →
      (cacheLookup load s sec).1 = load sec ∧
      ((cacheLookup load s sec).2).loads sec = s.loads sec + 1 ∧
      ((cacheLookup load s sec).2).cache sec = some (load sec)) ∧
    (∀ (s : FoldState) (sec : Nat), s.cache sec = some none →
      cacheLookup load s sec = (none, s)) ∧
    (∀ (texts : List Str) (sec : Nat),
      ((foldMany load initState texts).2.2).loads sec ≤ 1) := by
  intro load
  refine ⟨?_, ?_, ?_⟩
  · intro s sec h
    rw [cacheLookup_miss h]
    refine ⟨rfl, ?_, ?_⟩
    · show (cacheStore s sec (load sec)).loads sec = s.loads sec + 1
      rw [cacheStore_loads, if_pos rfl]
    · show (cacheStore s sec (load sec)).cache sec = some (load sec)
      rw [cacheStore_cache, if_pos rfl]
  · intro s sec h
    exact cacheLookup_hit h
  · intro texts sec
    exact cacheInv_loads_le (cacheInv_foldMany texts cacheInv_initState) sec

/-- Witness for C7 at a fresh section. -/
theorem c7_witness :
    (cacheLookup load0 initState 5).1 = load0 5 ∧
    ((cacheLookup load0 initState 5).2).loads 5 = initState.loads 5 + 1 ∧
    ((cacheLookup load0 initState 5).2).cache 5 = some (load0 5) :=
  (c7_cache_write_once load0).1 initState 5 rfl

/-- Claim C8: any first argument other than de and en fails the
language selection with the unsupported-language error carrying the
offending key, while de and en select german and english. -/
theorem c8_unsupported_language :
    (∀ arg : Str, arg ≠ strDe → arg ≠ strEn →
      selectLanguage arg = Except.error ⟨arg⟩) ∧
    selectLanguage strDe = Except.ok strGerman ∧
    selectLanguage strEn = Except.ok strEnglish := by
  refine ⟨?_, rfl, rfl⟩
  intro arg h1 h2
  have e1 : (strDe == arg) = false := beq_eq_false_iff_ne.mpr fun e => h1 e.symm
  have e2 : (strEn == arg) = false := beq_eq_false_iff_ne.mpr fun e => h2 e.symm
  have hd : dictGet LANGUAGES arg = none := by
    unfold dictGet LANGUAGES
    rw [List.find?_cons_of_neg _ (by simp [e1]),
      List.find?_cons_of_neg _ (by simp [e2])]
    rfl
  unfold selectLanguage
  rw [hd]

/-- Witness for C8 at the argument fr. -/
theorem c8_witness :
    selectLanguage [102, 114] = Except.error ⟨[102, 114]⟩ :=
  c8_unsupported_language.1 [102, 114] (by decide) (by decide)

/-- Claim C9: folding is insensitive to the prior cache state: from
any two states consistent with the same backing resource the character
folder returns the same output and the same warnings, and leaves a
consistent state, so repeated calls with the same argument agree. -/
theorem c9_fold_cache_insensitive :
    ∀ (load : Nat → Option Table) (text : Str) (s1 s2 : FoldState),
    Consistent load s1 → Consistent load s2 →
    (foldText load s1 text).1 = (foldText load s2 text).1 ∧
    (foldText load s1 text).2.1 = (foldText load s2 text).2.1 ∧
    Consistent load (foldText load s1 text).2.2 := by
  intro load text s1 s2 h1 h2
  obtain ⟨a1, a2, a3⟩ := foldText_bridge text h1
  obtain ⟨b1, b2, _⟩ := foldText_bridge text h2
  exact ⟨a1.trans b1.symm, a2.trans b2.symm, a3⟩

/-- Witness for C9: a populated cache and the fresh cache agree on the
same input. -/
theorem c9_witness :
    (foldText load0 (cacheStore initState 9 none) [2320]).1 =
      (foldText load0 initState [2320]).1 ∧
    (foldText load0 (cacheStore initState 9 none) [2320]).2.1 =
      (foldText load0 initState [2320]).2.1 ∧
    Consistent load0 (foldText load0 (cacheStore initState 9 none) [2320]).2.2 :=
  c9_fold_cache_insensitive load0 [2320] (cacheStore initState 9 none) initState
    (by
      intro sec r h
      rw [cacheStore_cache] at h
      split_ifs at h with e
      · exact (Option.some.inj h).symm
      · exact Option.noConfusion h)
    (consistent_initState load0)

/-- Claim C10: a sentence passing the raw-token threshold whose tokens
all normalize to the empty string joins to the empty string and is
filtered out of the line output. -/
theorem c10_all_empty_sentence :
    ∀ (sentTok wordTok : Str → List Str) (load : Nat → Option Table)
      (s : FoldState) (line sent : Str) (mw : Nat),
    sentTok (stripWs line) = [sent] →
    mw ≤ (wordTok sent).length →
    (∀ w ∈ (normalize_words load s (wordTok sent)).1, w = []) →
    (process_sentence wordTok load s sent mw).1 = [] ∧
    (process_line sentTok wordTok load s line mw).1 = [] := by
  intro sentTok wordTok load s line sent mw hseg hlen hall
  have hps : (process_sentence wordTok load s sent mw).1 = [] := by
    simp only [process_sentence]
    have hp : mw ≤ (normalize_words load s (wordTok sent)).1.length := by
      rw [normalize_words_length]
      exact hlen
    rw [if_pos hp]
    have hf : (normalize_words load s (wordTok sent)).1.filter
        (fun w => !w.isEmpty) = [] := by
      rw [List.filter_eq_nil_iff]
      intro a ha
      rw [hall a ha]
      decide
    rw [hf]
    rfl
  refine ⟨hps, ?_⟩
  unfold process_line
  rw [hseg]
  simp only [process_line_aux]
  rw [hps]
  rfl

/-- Witness for C10: four pure-punctuation tokens pass the threshold
but leave nothing to emit. -/
theorem c10_witness :
    (process_sentence (fun _ => [[33], [33], [33], [33]]) load0 initState
      [33] 4).1 = [] ∧
    (process_line (fun _ => [[33]]) (fun _ => [[33], [33], [33], [33]])
      load0 initState [33] 4).1 = [] :=
  c10_all_empty_sentence (fun _ => [[33]]) (fun _ => [[33], [33], [33], [33]])
    load0 initState [33] [33] 4 rfl (by decide) (by decide)
